import Mathlib

/-!
Shallow embedding of src/AI/transcript_whisper.py.

The Python script splits an audio file into fixed-length clips, transcribes
each clip through a remote service, and reassembles the per-clip transcripts
into one VTT or TXT document.  The definitions below translate each function
of the script; external effects (the audio library, the transcription
service, the environment, the file system) are passed in explicitly.
Numbers that the script handles as Python ints or floats are embedded as
naturals and exact rationals respectively.
-/

namespace TranscriptWhisper

/-- Fuel-driven loop computing Python range(start, stop, step) for a positive
step.  The fuel argument only forces structural termination; pyRange supplies
enough of it. -/
def pyRangeAux (step : ℕ) : ℕ → ℕ → ℕ → List ℕ
  | 0, _, _ => []
  | fuel + 1, start, stop =>
    if start < stop then start :: pyRangeAux step fuel (start + step) stop else []

/-- Python range(start, stop, step) for a positive step, as iterated by the
loop of split_file (line 47).  A zero step raises in Python and yields [] here. -/
def pyRange (start stop step : ℕ) : List ℕ :=
  if step = 0 then [] else pyRangeAux step ((stop - start) / step + 1) start stop

/-- Line 36: slice_duration = split_size * 60 * 1000, milliseconds. -/
def sliceDuration (split_size : ℕ) : ℕ :=
  split_size * 60 * 1000

/-- Lines 47-49: the (start_time, end_time) millisecond ranges of the clips
cut by split_file from a source of the given total duration. -/
def clips (split_size total_duration : ℕ) : List (ℕ × ℕ) :=
  (pyRange 0 total_duration (sliceDuration split_size)).map
    (fun start_time =>
      (start_time, min (start_time + sliceDuration split_size) total_duration))

/-- Characters of a list strictly before the first occurrence of sep; this is
Python str.split(sep)[0] at character level. -/
def take_before (sep : Char) : List Char → List Char
  | [] => []
  | c :: cs => if c = sep then [] else c :: take_before sep cs

/-- Characters after the last occurrence of sep (the whole list when sep does
not occur). -/
def after_last (sep : Char) (l : List Char) : List Char :=
  (l.reverse.takeWhile (fun c => c ≠ sep)).reverse

/-- Python os.path.basename on a POSIX path. -/
def py_basename (p : String) : String :=
  String.mk (after_last '/' p.data)

/-- Line 32 and line 147: os.path.basename(file_name).split(".")[0]. -/
def source_basename (file_name : String) : String :=
  String.mk (take_before '.' (py_basename file_name).data)

/-- Line 147: the output document name, basename.format. -/
def outfile_name (file_name format : String) : String :=
  source_basename file_name ++ "." ++ format

/-- Lines 51-52: the clip file path output_dir/basename_index_start_end.mp3. -/
def clip_filename (output_dir basename : String) (index start_time end_time : ℕ) : String :=
  output_dir ++ "/" ++ basename ++ "_" ++ toString index ++ "_" ++ toString start_time
    ++ "_" ++ toString end_time ++ ".mp3"

/-- Python floor division a // b on numbers, exact over ℚ. -/
def pyFloorDiv (a b : ℚ) : ℚ :=
  (⌊a / b⌋ : ℚ)

/-- Python a % b on numbers, that is a - b * (a // b), exact over ℚ. -/
def pyMod (a b : ℚ) : ℚ :=
  a - b * pyFloorDiv a b

/-- Python int() on a number: truncation toward zero. -/
def pyInt (q : ℚ) : ℤ :=
  if 0 ≤ q then ⌊q⌋ else ⌈q⌉

/-- Python format "{n:0w}": zero padding to width w.  For the nonnegative
values produced by the script this pads the decimal digits with leading
zeros up to width w. -/
def padIntWidth (w : ℕ) (n : ℤ) : String :=
  if (toString n).length < w then
    String.mk (List.replicate (w - (toString n).length) '0') ++ toString n
  else toString n

/-- Lines 102-107: seconds_to_vtt_time.  The script receives seconds as a
number, possibly fractional; it is embedded exactly as a rational. -/
def seconds_to_vtt_time (seconds : ℚ) : String :=
  let hours : ℤ := pyInt (pyFloorDiv seconds 3600)
  let minutes : ℤ := pyInt (pyFloorDiv (pyMod seconds 3600) 60)
  let seconds2 : ℚ := pyMod seconds 60
  let milliseconds : ℤ := pyInt ((seconds2 - (pyInt seconds2 : ℚ)) * 1000)
  padIntWidth 2 hours ++ ":" ++ padIntWidth 2 minutes ++ ":" ++
    padIntWidth 2 (pyInt seconds2) ++ "." ++ padIntWidth 3 milliseconds

/-- One timed transcript segment returned by the service, with clip-local
times in seconds.  The source field name "end" is a Lean keyword and is
rendered endTime. -/
structure Segment where
  start : ℚ
  endTime : ℚ
  text : String

/-- The verbose transcription result for one clip: the timed segments plus
the whole-clip text field. -/
structure TranscriptionVerbose where
  segments : List Segment
  text : String

/-- Line 126: one cue block "start --> end\ntext\n\n", with the given offset
in seconds added to both timestamps (lines 120-121). -/
def cue_block (offset_seconds : ℕ) (seg : Segment) : String :=
  seconds_to_vtt_time (seg.start + (offset_seconds : ℚ)) ++ " --> " ++
    seconds_to_vtt_time (seg.endTime + (offset_seconds : ℚ)) ++ "\n" ++ seg.text ++ "\n\n"

/-- Lines 119-126: the cue blocks accumulated by the segment loop of
convert_to_vtt, for a clip offset already converted to seconds. -/
def vtt_cue_blocks (segments : List Segment) (offset_seconds : ℕ) : String :=
  String.join (segments.map (cue_block offset_seconds))

/-- Lines 110-127: convert_to_vtt.  The offset is in minutes (the caller
passes index * split_size); offset_seconds = offset * 60 (line 113); the
WEBVTT header is prepended exactly when offset == 0 (lines 114-117). -/
def convert_to_vtt (tr : TranscriptionVerbose) (offset : ℕ) : String :=
  (if offset = 0 then "WEBVTT\n\n" else "") ++ vtt_cue_blocks tr.segments (offset * 60)

/-- Lines 83-98: the accumulating loop of get_transcript over
enumerate(audio_files), with the remote service as an explicit function and
i the enumeration index of the next file. -/
def transcribe_from (service : String → TranscriptionVerbose) (split_size : ℕ)
    (output_format : String) : ℕ → List String → String
  | _, [] => ""
  | i, f :: rest =>
    (if output_format = "vtt" then convert_to_vtt (service f) (i * split_size)
     else (service f).text)
      ++ transcribe_from service split_size output_format (i + 1) rest

/-- Lines 65-99: get_transcript for a total (never failing) service.  The
audio_files list is the enumeration order produced by os.listdir, which the
code uses as-is, without sorting. -/
def get_transcript (audio_files : List String) (service : String → TranscriptionVerbose)
    (split_size : ℕ) (output_format : String) : String :=
  transcribe_from service split_size output_format 0 audio_files

/-- Lines 83-98 with a fallible service: an error raised by the service call
for any clip propagates (nothing catches it) and aborts the loop, discarding
the accumulated output. -/
def transcribe_fromE (service : String → Except String TranscriptionVerbose) (split_size : ℕ)
    (output_format : String) : ℕ → List String → Except String String
  | _, [] => .ok ""
  | i, f :: rest =>
    match service f with
    | .error e => .error e
    | .ok tr =>
      match transcribe_fromE service split_size output_format (i + 1) rest with
      | .error e => .error e
      | .ok s =>
        .ok ((if output_format = "vtt" then convert_to_vtt tr (i * split_size) else tr.text) ++ s)

/-- get_transcript for a fallible service. -/
def get_transcriptE (audio_files : List String)
    (service : String → Except String TranscriptionVerbose)
    (split_size : ℕ) (output_format : String) : Except String String :=
  transcribe_fromE service split_size output_format 0 audio_files

/-- Overwriting write of one file into an association-list file system. -/
def writeFile (fs : List (String × String)) (name content : String) : List (String × String) :=
  (name, content) :: fs

/-- Lines 142-150 of main, after the splitting step: run get_transcript and
write the merged document to the output file; on a service error the
exception propagates, nothing is written, and the file system is returned
unchanged together with the error. -/
def main_after_split (fs : List (String × String)) (file_name : String)
    (audio_files : List String) (service : String → Except String TranscriptionVerbose)
    (split_size : ℕ) (format : String) : List (String × String) × Option String :=
  match get_transcriptE audio_files service split_size format with
  | .error e => (fs, some e)
  | .ok t => (writeFile fs (outfile_name file_name format) t, none)

/-- Lines 74-79: the API key the OpenAI client is constructed with: the
explicit argument when it differs from the empty default, else the value of
the OPENAI_API_KEY environment variable (what the bare OpenAI() constructor
reads), passed here explicitly. -/
def resolve_api_key (openai_api_key : String) (env_key : Option String) : Option String :=
  if openai_api_key ≠ "" then some openai_api_key else env_key

/-- Lines 46-60: the export loop of split_file.  The file system is an
association list mapping a clip path to the exported (start, end) sample
range; a clip whose path already exists is skipped (line 53) and its stored
content left as it is, the index advances either way (line 60).  Returns the
file system after the loop together with the paths actually exported, in
order. -/
def split_loop (basename output_dir : String) (slice_duration total_duration : ℕ) :
    List ℕ → ℕ → List (String × ℕ × ℕ) → List String → List (String × ℕ × ℕ) × List String
  | [], _, fs, exported => (fs, exported)
  | start_time :: rest, index, fs, exported =>
    let end_time := min (start_time + slice_duration) total_duration
    let output_file := clip_filename output_dir basename index start_time end_time
    if (fs.lookup output_file).isSome then
      split_loop basename output_dir slice_duration total_duration rest (index + 1) fs exported
    else
      split_loop basename output_dir slice_duration total_duration rest (index + 1)
        ((output_file, (start_time, end_time)) :: fs) (exported ++ [output_file])

/-- Lines 25-62: split_file acting on a file system of already-materialized
clips: derives the base name and the slices directory from the file name,
iterates the clip ranges of a source of total_duration milliseconds, skips
paths that already exist, and reports the performed exports. -/
def split_file_fs (fs : List (String × ℕ × ℕ)) (file_name : String)
    (split_size total_duration : ℕ) : List (String × ℕ × ℕ) × List String :=
  split_loop (source_basename file_name) ("slices/" ++ source_basename file_name)
    (sliceDuration split_size) total_duration
    (pyRange 0 total_duration (sliceDuration split_size)) 0 fs []

/-- Observation on the VTT output: the per-clip cue bodies from enumeration
index i on, without any header. -/
def vtt_body_from (service : String → TranscriptionVerbose) (split_size : ℕ) :
    ℕ → List String → String
  | _, [] => ""
  | i, f :: rest =>
    vtt_cue_blocks (service f).segments (i * split_size * 60)
      ++ vtt_body_from service split_size (i + 1) rest

/-- Observation on the VTT output: the rebased start times of all segments,
in output order, from enumeration index i on. -/
def rebased_starts_from (service : String → TranscriptionVerbose) (split_size : ℕ) :
    ℕ → List String → List ℚ
  | _, [] => []
  | i, f :: rest =>
    ((service f).segments.map (fun seg => seg.start + ((i * split_size * 60 : ℕ) : ℚ)))
      ++ rebased_starts_from service split_size (i + 1) rest

/-- A concrete service used to exercise the enumeration-order dependence of
get_transcript. -/
def svcC3 : String → TranscriptionVerbose := fun f =>
  if f = "talk_0_0_600000.mp3" then ⟨[], "premier "⟩ else ⟨[], "second "⟩

/-- A concrete constant service with one segment per clip. -/
def svcC5 : String → TranscriptionVerbose := fun _ =>
  ⟨[⟨0, 1, "x"⟩], "x"⟩

/-- A concrete fallible service failing on one clip. -/
def svcC6 : String → Except String TranscriptionVerbose := fun f =>
  if f = "bad.mp3" then .error "boom" else .ok ⟨[], "T"⟩

/-- A concrete service distinguishing the two clips by their text. -/
def svcC8 : String → TranscriptionVerbose := fun f =>
  if f = "talk_0_0_600000.mp3" then ⟨[], "A"⟩ else ⟨[], "B"⟩

/-- The fuel-driven range loop computes the arithmetic progression of
length ceil((stop - start) / step), provided the fuel covers that length. -/
theorem pyRangeAux_eq (step : ℕ) (hstep : 0 < step) :
    ∀ (fuel start stop : ℕ), (stop - start + step - 1) / step ≤ fuel →
      pyRangeAux step fuel start stop
        = (List.range ((stop - start + step - 1) / step)).map (fun i => start + i * step) := by
  intro fuel
  induction fuel with
  | zero =>
    intro start stop h
    have h0 : (stop - start + step - 1) / step = 0 := Nat.le_zero.mp h
    rw [h0]
    rfl
  | succ fuel ih =>
    intro start stop h
    by_cases hlt : start < stop
    · have hnum : stop - start + step - 1 = (stop - start - 1) + step := by omega
      have hN : (stop - start + step - 1) / step = (stop - start - 1) / step + 1 := by
        rw [hnum, Nat.add_div_right _ hstep]
      have hM : (stop - (start + step) + step - 1) / step = (stop - start - 1) / step := by
        by_cases hs2 : start + step ≤ stop
        · have heq : stop - (start + step) + step - 1 = stop - start - 1 := by omega
          rw [heq]
        · have h1 : stop - (start + step) + step - 1 = step - 1 := by omega
          rw [h1, Nat.div_eq_of_lt (by omega), Nat.div_eq_of_lt (by omega)]
      have hrec := ih (start + step) stop (by omega)
      rw [pyRangeAux, if_pos hlt, hrec, hM, hN, List.range_succ_eq_map]
      simp only [List.map_cons, List.map_map]
      refine congrArg₂ List.cons (by omega) ?_
      apply List.map_congr_left
      intro a _
      simp only [Function.comp_apply, Nat.succ_eq_add_one]
      ring
    · have h0 : (stop - start + step - 1) / step = 0 := by
        have hz : stop - start = 0 := by omega
        rw [hz]
        exact Nat.div_eq_of_lt (by omega)
      rw [pyRangeAux, if_neg hlt, h0]
      rfl

/-- Python range(start, stop, step) with positive step is the arithmetic
progression start, start + step, ... of length ceil((stop - start) / step). -/
theorem pyRange_eq (start stop step : ℕ) (hstep : 0 < step) :
    pyRange start stop step
      = (List.range ((stop - start + step - 1) / step)).map (fun i => start + i * step) := by
  unfold pyRange
  rw [if_neg (Nat.pos_iff_ne_zero.mp hstep)]
  apply pyRangeAux_eq step hstep
  calc (stop - start + step - 1) / step
      ≤ (stop - start + step) / step := Nat.div_le_div_right (by omega)
    _ = (stop - start) / step + 1 := Nat.add_div_right _ hstep

/-- Closed form of the clip list of split_file. -/
theorem clips_eq (split_size D : ℕ) (hm : 0 < split_size) :
    clips split_size D
      = (List.range ((D + sliceDuration split_size - 1) / sliceDuration split_size)).map
          (fun i => (i * sliceDuration split_size, min ((i + 1) * sliceDuration split_size) D)) := by
  have hS : 0 < sliceDuration split_size := by unfold sliceDuration; omega
  unfold clips
  rw [pyRange_eq 0 D (sliceDuration split_size) hS, List.map_map]
  simp only [Nat.sub_zero]
  apply List.map_congr_left
  intro i _
  simp only [Function.comp_apply, Nat.zero_add, Nat.succ_mul]

/-- An index strictly below ceil(D / S) starts strictly inside the source. -/
theorem lt_of_lt_ceilDiv {S D i : ℕ} (hS : 0 < S) (hi : i < (D + S - 1) / S) :
    i * S < D := by
  have h1 : (i + 1) * S ≤ ((D + S - 1) / S) * S := Nat.mul_le_mul_right S hi
  have h2 : ((D + S - 1) / S) * S ≤ D + S - 1 := Nat.div_mul_le_self _ _
  have h3 : i * S + S ≤ D + S - 1 := by
    calc i * S + S = (i + 1) * S := (Nat.succ_mul i S).symm
      _ ≤ D + S - 1 := le_trans h1 h2
  have h4 : i * S + S < D + S := lt_of_le_of_lt h3 (by omega)
  exact Nat.lt_of_add_lt_add_right h4

/-- C1: for a source of total duration D milliseconds and a positive slice
size split_size in minutes (slice S = split_size * 60 * 1000 ms), split_file
produces exactly ceil(D / S) clips; clip i covers [i * S, min((i+1) * S, D));
every clip has positive duration; consecutive clips are contiguous; every
instant of [0, D) lies in exactly one clip (non-overlap and exhaustiveness);
a positive source no longer than one slice yields exactly one clip spanning
the whole file; a duration that is an exact multiple of the slice yields
exactly D / S clips, hence no trailing empty clip. -/
theorem C1_segmenter_clip_geometry (split_size D : ℕ) (hm : 0 < split_size) :
    (clips split_size D).length = (D + sliceDuration split_size - 1) / sliceDuration split_size
    ∧ (∀ i (hi : i < (clips split_size D).length),
        (clips split_size D).get ⟨i, hi⟩
          = (i * sliceDuration split_size, min ((i + 1) * sliceDuration split_size) D))
    ∧ (∀ c ∈ clips split_size D, c.1 < c.2)
    ∧ (∀ i (hi : i + 1 < (clips split_size D).length),
        ((clips split_size D).get ⟨i, Nat.lt_of_succ_lt hi⟩).2
          = ((clips split_size D).get ⟨i + 1, hi⟩).1)
    ∧ (∀ t, t < D → ∃! i, ∃ hi : i < (clips split_size D).length,
        ((clips split_size D).get ⟨i, hi⟩).1 ≤ t ∧ t < ((clips split_size D).get ⟨i, hi⟩).2)
    ∧ (0 < D → D ≤ sliceDuration split_size → clips split_size D = [(0, D)])
    ∧ (sliceDuration split_size ∣ D →
        (clips split_size D).length = D / sliceDuration split_size) := by
  have hS : 0 < sliceDuration split_size := by unfold sliceDuration; omega
  have heq := clips_eq split_size D hm
  set S := sliceDuration split_size with hSdef
  set N := (D + S - 1) / S with hNdef
  have hlen : (clips split_size D).length = N := by rw [heq]; simp
  have hget : ∀ i (hi : i < (clips split_size D).length),
      (clips split_size D).get ⟨i, hi⟩ = (i * S, min ((i + 1) * S) D) := by
    intro i hi
    simp only [List.get_eq_getElem, heq, List.getElem_map, List.getElem_range]
  have hnonempty : ∀ c ∈ clips split_size D, c.1 < c.2 := by
    intro c hc
    rw [heq] at hc
    obtain ⟨i, hi, rfl⟩ := List.mem_map.mp hc
    rw [List.mem_range] at hi
    refine lt_min ?_ ?_
    · rw [Nat.succ_mul]
      exact Nat.lt_add_of_pos_right hS
    · exact lt_of_lt_ceilDiv hS hi
  have hcontig : ∀ i (hi : i + 1 < (clips split_size D).length),
      ((clips split_size D).get ⟨i, Nat.lt_of_succ_lt hi⟩).2
        = ((clips split_size D).get ⟨i + 1, hi⟩).1 := by
    intro i hi
    rw [hget _ (Nat.lt_of_succ_lt hi), hget _ hi]
    show min ((i + 1) * S) D = (i + 1) * S
    refine min_eq_left (le_of_lt ?_)
    have hi1 : i + 1 < N := hlen ▸ hi
    exact lt_of_lt_ceilDiv hS hi1
  have hcover : ∀ t, t < D → ∃! i, ∃ hi : i < (clips split_size D).length,
      ((clips split_size D).get ⟨i, hi⟩).1 ≤ t ∧ t < ((clips split_size D).get ⟨i, hi⟩).2 := by
    intro t ht
    have hD1 : 1 ≤ D := by omega
    have hN1 : N = (D - 1) / S + 1 := by
      rw [hNdef]
      have hrw : D + S - 1 = (D - 1) + S := by omega
      rw [hrw, Nat.add_div_right _ hS]
    have hidx : t / S < (clips split_size D).length := by
      rw [hlen, hN1]
      have h : t / S ≤ (D - 1) / S := Nat.div_le_div_right (show t ≤ D - 1 by omega)
      omega
    refine ⟨t / S, ⟨hidx, ?_, ?_⟩, ?_⟩
    · rw [hget _ hidx]
      exact Nat.div_mul_le_self t S
    · rw [hget _ hidx]
      show t < min ((t / S + 1) * S) D
      refine lt_min ?_ ht
      calc t = S * (t / S) + t % S := (Nat.div_add_mod t S).symm
        _ < S * (t / S) + S := Nat.add_lt_add_left (Nat.mod_lt t hS) _
        _ = (t / S + 1) * S := by ring
    · rintro j ⟨hj, hj1, hj2⟩
      rw [hget _ hj] at hj1 hj2
      have hj1' : j * S ≤ t := hj1
      have hj2' : t < (j + 1) * S := lt_of_lt_of_le hj2 (min_le_left _ _)
      exact (Nat.div_eq_of_lt_le hj1' hj2').symm
  have hone : 0 < D → D ≤ S → clips split_size D = [(0, D)] := by
    intro hD hDS
    rw [heq]
    have hN1 : N = 1 := by
      rw [hNdef]
      apply Nat.div_eq_of_lt_le
      · omega
      · omega
    have hr1 : List.range 1 = [0] := rfl
    rw [hN1, hr1]
    simp only [List.map_cons, List.map_nil, Nat.zero_mul, Nat.zero_add, Nat.one_mul]
    rw [min_eq_right hDS]
  have hdvd : S ∣ D → (clips split_size D).length = D / S := by
    rintro ⟨k, rfl⟩
    rw [hlen, hNdef, Nat.mul_comm S k]
    calc (k * S + S - 1) / S = ((S - 1) + k * S) / S := by
          rw [Nat.add_sub_assoc (by omega : 1 ≤ S), Nat.add_comm (k * S) (S - 1)]
      _ = (S - 1) / S + k := Nat.add_mul_div_right _ _ hS
      _ = k := by rw [Nat.div_eq_of_lt (by omega), Nat.zero_add]
      _ = k * S / S := by rw [Nat.mul_div_cancel _ hS]
  exact ⟨hlen, hget, hnonempty, hcontig, hcover, hone, hdvd⟩

/-- Witness for C1 at split_size = 2 minutes, D = 150000 ms. -/
theorem C1_witness :
    0 < 2
    ∧ (clips 2 150000).length = (150000 + sliceDuration 2 - 1) / sliceDuration 2 :=
  ⟨by decide, (C1_segmenter_clip_geometry 2 150000 (by decide)).1⟩

/-- For nonnegative a and a positive natural n, the rational floor of a / n
is the integer floor of a divided by n. -/
theorem floorQ_div_nat (a : ℚ) (ha : 0 ≤ a) (n : ℕ) :
    ⌊a / (n : ℚ)⌋ = ⌊a⌋ / (n : ℤ) := by
  have h0 : (0 : ℚ) ≤ a / n := div_nonneg ha (Nat.cast_nonneg n)
  have h1 : (⌊a / (n : ℚ)⌋.toNat : ℤ) = ⌊a / (n : ℚ)⌋ :=
    Int.toNat_of_nonneg (Int.floor_nonneg.mpr h0)
  have h2 : (⌊a⌋.toNat : ℤ) = ⌊a⌋ := Int.toNat_of_nonneg (Int.floor_nonneg.mpr ha)
  calc ⌊a / (n : ℚ)⌋ = (⌊a / (n : ℚ)⌋.toNat : ℤ) := h1.symm
    _ = ((⌊a / (n : ℚ)⌋₊ : ℕ) : ℤ) := by rw [Int.floor_toNat]
    _ = ((⌊a⌋₊ / n : ℕ) : ℤ) := by rw [Nat.floor_div_nat]
    _ = ((⌊a⌋₊ : ℕ) : ℤ) / (n : ℤ) := Int.natCast_div _ _
    _ = ⌊a⌋ / (n : ℤ) := by rw [← Int.floor_toNat a, h2]

/-- Python int() is the floor on nonnegative values. -/
theorem pyInt_of_nonneg {q : ℚ} (h : 0 ≤ q) : pyInt q = ⌊q⌋ :=
  if_pos h

/-- Python int() is the identity on integers. -/
theorem pyInt_intCast (k : ℤ) : pyInt (k : ℚ) = k := by
  unfold pyInt
  split
  · exact Int.floor_intCast k
  · exact Int.ceil_intCast k

/-- Python s % n for 0 ≤ s and a positive natural n splits into the integer
remainder of the floor of s plus the fractional part of s. -/
theorem pyMod_cast_eq (s : ℚ) (hs : 0 ≤ s) (n : ℕ) :
    pyMod s (n : ℚ) = ((⌊s⌋ % (n : ℤ) : ℤ) : ℚ) + Int.fract s := by
  unfold pyMod pyFloorDiv
  rw [floorQ_div_nat s hs n]
  have h1 : (n : ℤ) * (⌊s⌋ / (n : ℤ)) + ⌊s⌋ % (n : ℤ) = ⌊s⌋ := Int.ediv_add_emod _ _
  have h2 : ((⌊s⌋ : ℤ) : ℚ) + Int.fract s = s := Int.floor_add_fract s
  have h1q : ((n : ℕ) : ℚ) * ((⌊s⌋ / (n : ℤ) : ℤ) : ℚ) + ((⌊s⌋ % (n : ℤ) : ℤ) : ℚ)
      = ((⌊s⌋ : ℤ) : ℚ) := by exact_mod_cast h1
  linear_combination - h1q - h2

/-- C2: for every nonnegative seconds value s (possibly fractional, possibly
at least 3600), seconds_to_vtt_time decomposes s into hours H (unbounded,
zero-padded to at least 2 digits), minutes M in 0..59, whole seconds SS in
0..59 and milliseconds MS in 0..999 obtained by truncating the fractional
part of s to milliseconds, formatted HH:MM:SS.mmm; in particular
seconds_to_vtt_time 0 = "00:00:00.000", seconds_to_vtt_time 3725.4 =
"01:02:05.400" and seconds_to_vtt_time 59.999 = "00:00:59.999". -/
theorem C2_seconds_to_vtt_time_format (s : ℚ) (hs : 0 ≤ s) :
    (∃ H M SS MS : ℕ,
        (H : ℤ) * 3600 + (M : ℤ) * 60 + (SS : ℤ) = ⌊s⌋
        ∧ M < 60 ∧ SS < 60 ∧ MS < 1000
        ∧ (MS : ℤ) = ⌊(s - (⌊s⌋ : ℚ)) * 1000⌋
        ∧ seconds_to_vtt_time s
            = padIntWidth 2 (H : ℤ) ++ ":" ++ padIntWidth 2 (M : ℤ) ++ ":" ++
                padIntWidth 2 (SS : ℤ) ++ "." ++ padIntWidth 3 (MS : ℤ))
    ∧ seconds_to_vtt_time 0 = "00:00:00.000"
    ∧ seconds_to_vtt_time (37254 / 10) = "01:02:05.400"
    ∧ seconds_to_vtt_time (59999 / 1000) = "00:00:59.999" := by
  have c3600 : ((3600 : ℕ) : ℚ) = (3600 : ℚ) := by norm_cast
  have c60 : ((60 : ℕ) : ℚ) = (60 : ℚ) := by norm_cast
  have hhours : pyInt (pyFloorDiv s 3600) = ⌊s⌋ / 3600 := by
    unfold pyFloorDiv
    rw [pyInt_intCast, ← c3600, floorQ_div_nat s hs 3600]
    norm_num
  have hm3600 : pyMod s 3600 = ((⌊s⌋ % 3600 : ℤ) : ℚ) + Int.fract s := by
    rw [← c3600, pyMod_cast_eq s hs 3600]
    norm_num
  have hm60 : pyMod s 60 = ((⌊s⌋ % 60 : ℤ) : ℚ) + Int.fract s := by
    rw [← c60, pyMod_cast_eq s hs 60]
    norm_num
  have hx3600 : (0 : ℚ) ≤ ((⌊s⌋ % 3600 : ℤ) : ℚ) + Int.fract s := by
    have h1 : (0 : ℤ) ≤ ⌊s⌋ % 3600 := Int.emod_nonneg _ (by norm_num)
    exact add_nonneg (by exact_mod_cast h1) (Int.fract_nonneg s)
  have hx60 : (0 : ℚ) ≤ ((⌊s⌋ % 60 : ℤ) : ℚ) + Int.fract s := by
    have h1 : (0 : ℤ) ≤ ⌊s⌋ % 60 := Int.emod_nonneg _ (by norm_num)
    exact add_nonneg (by exact_mod_cast h1) (Int.fract_nonneg s)
  have hmin : pyInt (pyFloorDiv (pyMod s 3600) 60) = ⌊s⌋ % 3600 / 60 := by
    rw [hm3600]
    unfold pyFloorDiv
    rw [pyInt_intCast, ← c60, floorQ_div_nat _ hx3600 60,
      Int.floor_int_add, Int.floor_fract]
    norm_num
  have hsec : pyInt (pyMod s 60) = ⌊s⌋ % 60 := by
    rw [hm60, pyInt_of_nonneg hx60, Int.floor_int_add, Int.floor_fract]
    norm_num
  have hms : pyInt ((pyMod s 60 - (pyInt (pyMod s 60) : ℚ)) * 1000)
      = ⌊Int.fract s * 1000⌋ := by
    rw [hsec, hm60]
    have hdif : ((⌊s⌋ % 60 : ℤ) : ℚ) + Int.fract s - ((⌊s⌋ % 60 : ℤ) : ℚ) = Int.fract s := by
      ring
    rw [hdif, pyInt_of_nonneg (mul_nonneg (Int.fract_nonneg s) (by norm_num))]
  have hms0 : 0 ≤ ⌊Int.fract s * 1000⌋ :=
    Int.floor_nonneg.mpr (mul_nonneg (Int.fract_nonneg s) (by norm_num))
  have hmslt : ⌊Int.fract s * 1000⌋ < 1000 := by
    have h1 : Int.fract s * 1000 < 1000 := by
      have h2 := Int.fract_lt_one s
      nlinarith
    exact Int.floor_lt.mpr (by exact_mod_cast h1)
  have hn0 : 0 ≤ ⌊s⌋ := Int.floor_nonneg.mpr hs
  have e1 : ((⌊s⌋ / 3600).toNat : ℤ) = ⌊s⌋ / 3600 :=
    Int.toNat_of_nonneg (Int.ediv_nonneg hn0 (by norm_num))
  have e2 : ((⌊s⌋ % 3600 / 60).toNat : ℤ) = ⌊s⌋ % 3600 / 60 :=
    Int.toNat_of_nonneg (Int.ediv_nonneg (Int.emod_nonneg _ (by norm_num)) (by norm_num))
  have e3 : ((⌊s⌋ % 60).toNat : ℤ) = ⌊s⌋ % 60 :=
    Int.toNat_of_nonneg (Int.emod_nonneg _ (by norm_num))
  have e4 : ((⌊Int.fract s * 1000⌋).toNat : ℤ) = ⌊Int.fract s * 1000⌋ :=
    Int.toNat_of_nonneg hms0
  refine ⟨⟨(⌊s⌋ / 3600).toNat, (⌊s⌋ % 3600 / 60).toNat, (⌊s⌋ % 60).toNat,
      (⌊Int.fract s * 1000⌋).toNat, ?_, ?_, ?_, ?_, ?_, ?_⟩, ?_, ?_, ?_⟩
  · rw [e1, e2, e3]
    omega
  · omega
  · omega
  · omega
  · rw [e4, ← Int.self_sub_floor]
  · simp only [seconds_to_vtt_time]
    rw [hms, hhours, hmin, hsec, e1, e2, e3, e4]
  · norm_num [seconds_to_vtt_time, pyFloorDiv, pyMod, pyInt]
    decide
  · norm_num [seconds_to_vtt_time, pyFloorDiv, pyMod, pyInt]
    decide
  · norm_num [seconds_to_vtt_time, pyFloorDiv, pyMod, pyInt]
    decide

/-- Witness for C2 at s = 0. -/
theorem C2_witness :
    (0 : ℚ) ≤ 0 ∧ seconds_to_vtt_time 0 = "00:00:00.000" :=
  ⟨le_refl 0, (C2_seconds_to_vtt_time_format 0 (le_refl 0)).2.1⟩

/-- String.join distributes over cons. -/
theorem string_join_cons (a : String) (l : List String) :
    String.join (a :: l) = a ++ String.join l := by
  apply String.ext
  simp [String.join_eq, String.data_append]

/-- C3 fails on the code: get_transcript consumes the os.listdir enumeration
as-is and assigns offsets by enumeration position, so two enumeration orders
of the same clip files give different outputs. -/
theorem C3_enumeration_order_dependence :
    get_transcript ["talk_1_600000_1200000.mp3", "talk_0_0_600000.mp3"] svcC3 10 "txt"
      ≠ get_transcript ["talk_0_0_600000.mp3", "talk_1_600000_1200000.mp3"] svcC3 10 "txt" := by
  decide

/-- The txt branch of the transcription loop concatenates the whole-clip text
fields in enumeration order, for any starting index. -/
theorem transcribe_from_txt (service : String → TranscriptionVerbose) (split_size : ℕ) :
    ∀ (files : List String) (i : ℕ),
      transcribe_from service split_size "txt" i files
        = String.join (files.map (fun f => (service f).text)) := by
  intro files
  induction files with
  | nil => intro i; rfl
  | cons f rest ih =>
    intro i
    rw [transcribe_from, if_neg (by decide : ¬ ("txt" : String) = "vtt"), ih (i + 1),
      List.map_cons, string_join_cons]

/-- C8 (amended): with flat text output, get_transcript returns the
concatenation, in the order the clip files are enumerated and processed, of
each clip's whole-clip text field, with no timestamps; this is the
chronological concatenation exactly when the enumeration order is
chronological. -/
theorem C8_txt_concatenation (files : List String) (service : String → TranscriptionVerbose)
    (split_size : ℕ) :
    get_transcript files service split_size "txt"
      = String.join (files.map (fun f => (service f).text)) :=
  transcribe_from_txt service split_size files 0

/-- Counterexample to C8 as stated: when the enumeration order is not
chronological (clip index 1 listed before clip index 0), the txt output is
not the chronological concatenation of the text fields. -/
theorem C8_counterexample_not_chronological :
    get_transcript ["talk_1_600000_1200000.mp3", "talk_0_0_600000.mp3"] svcC8 10 "txt"
      ≠ (svcC8 "talk_0_0_600000.mp3").text ++ (svcC8 "talk_1_600000_1200000.mp3").text := by
  decide

/-- C4: converting the clip at enumeration index i (slice size split_size
minutes) shifts every segment's clip-local start and end by exactly
i * split_size * 60 seconds; in particular a segment with start 5 and end 7
from clip index 2 with slice size 10 rebases to 1205 and 1207 seconds. -/
theorem C4_rebasing_offset (tr : TranscriptionVerbose) (i split_size : ℕ) :
    convert_to_vtt tr (i * split_size)
      = (if i * split_size = 0 then "WEBVTT\n\n" else "")
        ++ String.join (tr.segments.map (fun seg =>
            seconds_to_vtt_time (seg.start + ((i * split_size * 60 : ℕ) : ℚ)) ++ " --> "
              ++ seconds_to_vtt_time (seg.endTime + ((i * split_size * 60 : ℕ) : ℚ)) ++ "\n"
              ++ seg.text ++ "\n\n"))
    ∧ convert_to_vtt ⟨[⟨5, 7, " bonjour"⟩], " bonjour"⟩ (2 * 10)
        = seconds_to_vtt_time 1205 ++ " --> " ++ seconds_to_vtt_time 1207
            ++ "\n" ++ " bonjour" ++ "\n\n" := by
  constructor
  · rfl
  · have h5 : (5 : ℚ) + ((2 * 10 * 60 : ℕ) : ℚ) = 1205 := by norm_num
    have h7 : (7 : ℚ) + ((2 * 10 * 60 : ℕ) : ℚ) = 1207 := by norm_num
    simp only [convert_to_vtt, vtt_cue_blocks, cue_block, List.map_cons, List.map_nil]
    rw [if_neg (by decide : ¬ (2 * 10 : ℕ) = 0), string_join_cons]
    rw [h5, h7]
    apply String.ext
    simp [String.join, String.data_append]

/-- C9: an explicitly provided, non-default (non-empty) key takes precedence
and is used for the client; when the explicit value is the empty default the
key is read from the OPENAI_API_KEY environment variable. -/
theorem C9_credential_resolution (k : String) (env_key : Option String) :
    (k ≠ "" → resolve_api_key k env_key = some k)
    ∧ (k = "" → resolve_api_key k env_key = env_key) := by
  constructor
  · intro h
    simp [resolve_api_key, h]
  · intro h
    simp [resolve_api_key, h]

/-- Witness for C9. -/
theorem C9_witness :
    resolve_api_key "sk-abc" (some "sk-env") = some "sk-abc"
    ∧ resolve_api_key "" (some "sk-env") = some "sk-env" :=
  ⟨(C9_credential_resolution "sk-abc" (some "sk-env")).1 (by decide),
    (C9_credential_resolution "" (some "sk-env")).2 rfl⟩

/-- take_before returns the sep-free part of the list strictly before the
first occurrence of sep, the whole list when sep does not occur. -/
theorem take_before_spec (sep : Char) :
    ∀ l : List Char, (¬ sep ∈ take_before sep l)
      ∧ (l = take_before sep l ∨ ∃ rest, l = take_before sep l ++ sep :: rest) := by
  intro l
  induction l with
  | nil => exact ⟨by simp [take_before], Or.inl rfl⟩
  | cons c cs ih =>
    by_cases hc : c = sep
    · subst hc
      exact ⟨by simp [take_before], Or.inr ⟨cs, by simp [take_before]⟩⟩
    · obtain ⟨ih1, ih2⟩ := ih
      constructor
      · simp only [take_before, if_neg hc, List.mem_cons]
        rintro (h | h)
        · exact hc h.symm
        · exact ih1 h
      · rcases ih2 with h | ⟨rest, hrest⟩
        · left
          simp only [take_before, if_neg hc]
          rw [← h]
        · right
          refine ⟨rest, ?_⟩
          simp only [take_before, if_neg hc, List.cons_append]
          rw [← hrest]

/-- C10: the base name deriving the slices subdirectory, the clip filenames
and the output document name is the portion of the file's basename strictly
before its first dot; a source named dir/talk.v2.mp3 yields paths derived
from "talk", not "talk.v2". -/
theorem C10_basename_before_first_dot (file_name : String) :
    (¬ '.' ∈ (source_basename file_name).data)
    ∧ ((py_basename file_name).data = (source_basename file_name).data
        ∨ ∃ rest, (py_basename file_name).data = (source_basename file_name).data ++ '.' :: rest)
    ∧ source_basename "dir/talk.v2.mp3" = "talk"
    ∧ outfile_name "dir/talk.v2.mp3" "vtt" = "talk.vtt"
    ∧ (split_file_fs [] "dir/talk.v2.mp3" 10 720000).2
        = ["slices/talk/talk_0_0_600000.mp3", "slices/talk/talk_1_600000_720000.mp3"] := by
  have h := take_before_spec '.' (py_basename file_name).data
  exact ⟨h.1, h.2, by decide, by decide, by decide⟩

/-- A service error for a clip in the list aborts the transcription loop with
that first error, for any starting index, when all earlier clips succeed. -/
theorem transcribe_fromE_error (service : String → Except String TranscriptionVerbose)
    (split_size : ℕ) (output_format : String) (f : String) (post : List String) (e : String)
    (hf : service f = .error e) :
    ∀ (pre : List String) (i : ℕ), (∀ g ∈ pre, ∃ tr, service g = .ok tr) →
      transcribe_fromE service split_size output_format i (pre ++ f :: post) = .error e := by
  intro pre
  induction pre with
  | nil =>
    intro i _
    simp only [List.nil_append, transcribe_fromE, hf]
  | cons g pre ih =>
    intro i hpre
    obtain ⟨tr, hg⟩ := hpre g (List.mem_cons_self g pre)
    have hrest := ih (i + 1) (fun x hx => hpre x (List.mem_cons_of_mem g hx))
    simp only [List.cons_append, transcribe_fromE, hg, List.append_eq, hrest]

/-- C6: if the transcription service call raises for some clip, with all
clips before it succeeding, the error propagates uncaught out of
get_transcript — the accumulated transcription output is lost — and main
writes no output document, leaving the file system (in particular the
already-exported clip files) unchanged. -/
theorem C6_service_error_aborts_run (fs : List (String × String)) (file_name : String)
    (pre post : List String) (f : String)
    (service : String → Except String TranscriptionVerbose) (split_size : ℕ)
    (format : String) (e : String)
    (hf : service f = .error e) (hpre : ∀ g ∈ pre, ∃ tr, service g = .ok tr) :
    get_transcriptE (pre ++ f :: post) service split_size format = .error e
    ∧ main_after_split fs file_name (pre ++ f :: post) service split_size format
        = (fs, some e) := by
  have h1 : get_transcriptE (pre ++ f :: post) service split_size format = .error e :=
    transcribe_fromE_error service split_size format f post e hf pre 0 hpre
  refine ⟨h1, ?_⟩
  unfold main_after_split
  rw [h1]

/-- Witness for C6. -/
theorem C6_witness :
    get_transcriptE (["a.mp3"] ++ "bad.mp3" :: ["c.mp3"]) svcC6 5 "vtt" = .error "boom"
    ∧ main_after_split [("slices/x/x_0_0_1.mp3", "c0")] "x.mp3"
        (["a.mp3"] ++ "bad.mp3" :: ["c.mp3"]) svcC6 5 "vtt"
        = ([("slices/x/x_0_0_1.mp3", "c0")], some "boom") :=
  C6_service_error_aborts_run [("slices/x/x_0_0_1.mp3", "c0")] "x.mp3" ["a.mp3"] ["c.mp3"]
    "bad.mp3" svcC6 5 "vtt" "boom" rfl
    (fun g hg => by
      rw [List.mem_singleton] at hg
      subst hg
      exact ⟨⟨[], "T"⟩, rfl⟩)

/-- With a positive slice size, from enumeration index 1 on the header branch
of convert_to_vtt is never taken: each later clip contributes exactly its cue
blocks. -/
theorem transcribe_from_vtt_no_header (service : String → TranscriptionVerbose)
    (split_size : ℕ) (hm : 0 < split_size) :
    ∀ (files : List String) (i : ℕ), 1 ≤ i →
      transcribe_from service split_size "vtt" i files
        = vtt_body_from service split_size i files := by
  intro files
  induction files with
  | nil => intro i _; rfl
  | cons f rest ih =>
    intro i hi
    have hne : ¬ i * split_size = 0 := by
      intro h
      rcases Nat.mul_eq_zero.mp h with h | h <;> omega
    rw [transcribe_from, vtt_body_from, if_pos rfl, ih (i + 1) (by omega)]
    simp only [convert_to_vtt]
    rw [if_neg hne]
    simp

/-- With clip-local starts nonnegative, within one slice, and sorted per
clip, the rebased start times from index i on are sorted and bounded below
by the clip i offset. -/
theorem rebased_starts_sorted (service : String → TranscriptionVerbose) (split_size : ℕ)
    (hlo : ∀ f, ∀ seg ∈ (service f).segments, 0 ≤ seg.start)
    (hhi : ∀ f, ∀ seg ∈ (service f).segments, seg.start < ((split_size * 60 : ℕ) : ℚ))
    (hsorted : ∀ f, List.Pairwise (fun a b => a.start ≤ b.start) (service f).segments) :
    ∀ (files : List String) (i : ℕ),
      List.Pairwise (· ≤ ·) (rebased_starts_from service split_size i files)
      ∧ ∀ x ∈ rebased_starts_from service split_size i files,
          ((i * split_size * 60 : ℕ) : ℚ) ≤ x := by
  intro files
  induction files with
  | nil =>
    intro i
    exact ⟨List.Pairwise.nil, fun x hx => absurd hx (List.not_mem_nil x)⟩
  | cons f rest ih =>
    intro i
    obtain ⟨ihp, ihb⟩ := ih (i + 1)
    have hstep : ∀ seg ∈ (service f).segments,
        seg.start + ((i * split_size * 60 : ℕ) : ℚ)
          < (((i + 1) * split_size * 60 : ℕ) : ℚ) := by
      intro seg hseg
      have h2 := hhi f seg hseg
      have h4 : ((split_size * 60 : ℕ) : ℚ) + ((i * split_size * 60 : ℕ) : ℚ)
          = (((i + 1) * split_size * 60 : ℕ) : ℚ) := by push_cast; ring
      calc seg.start + ((i * split_size * 60 : ℕ) : ℚ)
          < ((split_size * 60 : ℕ) : ℚ) + ((i * split_size * 60 : ℕ) : ℚ) :=
            add_lt_add_right h2 _
        _ = (((i + 1) * split_size * 60 : ℕ) : ℚ) := h4
    constructor
    · rw [rebased_starts_from, List.pairwise_append]
      refine ⟨?_, ihp, ?_⟩
      · refine List.Pairwise.map _ ?_ (hsorted f)
        intro a b hab
        exact add_le_add_right hab _
      · intro x hx y hy
        obtain ⟨seg, hseg, rfl⟩ := List.mem_map.mp hx
        exact le_of_lt (lt_of_lt_of_le (hstep seg hseg) (ihb y hy))
    · intro x hx
      rw [rebased_starts_from] at hx
      rcases List.mem_append.mp hx with hx | hx
      · obtain ⟨seg, hseg, rfl⟩ := List.mem_map.mp hx
        exact le_add_of_nonneg_left (hlo f seg hseg)
      · refine le_trans ?_ (ihb x hx)
        have hmono : (i * split_size * 60 : ℕ) ≤ ((i + 1) * split_size * 60 : ℕ) :=
          Nat.mul_le_mul_right _ (Nat.mul_le_mul_right _ (by omega))
        exact_mod_cast hmono

/-- C5: with a positive slice size, the VTT output of get_transcript is the
WEBVTT header, contributed once by the very first clip processed, followed by
the header-free cue blocks of every clip in processing order; and when each
clip's segments are sorted with starts inside one slice, the cue blocks are
ordered by rebased start time, matching clip order. -/
theorem C5_header_once_and_order (f0 : String) (files : List String)
    (service : String → TranscriptionVerbose) (split_size : ℕ) (hm : 0 < split_size)
    (hlo : ∀ f, ∀ seg ∈ (service f).segments, 0 ≤ seg.start)
    (hhi : ∀ f, ∀ seg ∈ (service f).segments, seg.start < ((split_size * 60 : ℕ) : ℚ))
    (hsorted : ∀ f, List.Pairwise (fun a b => a.start ≤ b.start) (service f).segments) :
    get_transcript (f0 :: files) service split_size "vtt"
      = "WEBVTT\n\n" ++ vtt_body_from service split_size 0 (f0 :: files)
    ∧ List.Pairwise (· ≤ ·) (rebased_starts_from service split_size 0 (f0 :: files)) := by
  constructor
  · unfold get_transcript
    rw [transcribe_from, vtt_body_from, if_pos rfl,
      transcribe_from_vtt_no_header service split_size hm files 1 (le_refl 1)]
    simp only [convert_to_vtt, Nat.zero_add]
    rw [if_pos (Nat.zero_mul split_size), String.append_assoc]
  · exact (rebased_starts_sorted service split_size hlo hhi hsorted (f0 :: files) 0).1

/-- Witness for C5. -/
theorem C5_witness :
    get_transcript ["a.mp3", "b.mp3"] svcC5 10 "vtt"
      = "WEBVTT\n\n" ++ vtt_body_from svcC5 10 0 ["a.mp3", "b.mp3"]
    ∧ List.Pairwise (· ≤ ·) (rebased_starts_from svcC5 10 0 ["a.mp3", "b.mp3"]) :=
  C5_header_once_and_order "a.mp3" ["b.mp3"] svcC5 10 (by decide)
    (fun f seg hseg => by
      rw [List.mem_singleton.mp hseg])
    (fun f seg hseg => by
      rw [List.mem_singleton.mp hseg]
      exact Nat.cast_pos.mpr (by decide))
    (fun f => List.pairwise_singleton _ _)

/-- The split loop never touches or re-exports a path already present: its
stored content survives unchanged and the path is only exported if it was
already in the accumulator. -/
theorem split_loop_keeps (basename output_dir : String) (slice_duration total_duration : ℕ) :
    ∀ (starts : List ℕ) (index : ℕ) (fs : List (String × ℕ × ℕ)) (exported : List String)
      (n : String) (c : ℕ × ℕ), fs.lookup n = some c →
      (split_loop basename output_dir slice_duration total_duration
          starts index fs exported).1.lookup n = some c
      ∧ (n ∈ (split_loop basename output_dir slice_duration total_duration
          starts index fs exported).2 → n ∈ exported) := by
  intro starts
  induction starts with
  | nil => intro index fs exported n c h; exact ⟨h, fun hx => hx⟩
  | cons s rest ih =>
    intro index fs exported n c h
    simp only [split_loop]
    set name := clip_filename output_dir basename index s
      (min (s + slice_duration) total_duration) with hname
    by_cases hp : (fs.lookup name).isSome
    · rw [if_pos hp]
      exact ih (index + 1) fs exported n c h
    · rw [if_neg hp]
      have hnm : n ≠ name := by
        intro hEq
        rw [hEq] at h
        exact hp (by rw [h]; rfl)
      have h2 : ((name, (s, min (s + slice_duration) total_duration)) :: fs).lookup n
          = some c := by
        have hb : (n == name) = false := beq_eq_false_iff_ne.mpr hnm
        simp only [List.lookup, hb]
        exact h
      obtain ⟨r1, r2⟩ := ih (index + 1) _ (exported ++ [name]) n c h2
      refine ⟨r1, fun hx => ?_⟩
      rcases List.mem_append.mp (r2 hx) with hx2 | hx2
      · exact hx2
      · exact absurd (List.mem_singleton.mp hx2) hnm

/-- After the split loop runs, every clip path it considered is present. -/
theorem split_loop_materializes (basename output_dir : String)
    (slice_duration total_duration : ℕ) :
    ∀ (starts : List ℕ) (index : ℕ) (fs : List (String × ℕ × ℕ)) (exported : List String)
      (j : ℕ) (hj : j < starts.length),
      (((split_loop basename output_dir slice_duration total_duration
          starts index fs exported).1.lookup
        (clip_filename output_dir basename (index + j) (starts.get ⟨j, hj⟩)
          (min (starts.get ⟨j, hj⟩ + slice_duration) total_duration))).isSome) = true := by
  intro starts
  induction starts with
  | nil => intro index fs exported j hj; exact absurd hj (by simp)
  | cons s rest ih =>
    intro index fs exported j hj
    cases j with
    | zero =>
      simp only [List.get, Nat.add_zero]
      simp only [split_loop]
      set name := clip_filename output_dir basename index s
        (min (s + slice_duration) total_duration) with hname
      by_cases hp : (fs.lookup name).isSome
      · rw [if_pos hp]
        obtain ⟨c, hc⟩ := Option.isSome_iff_exists.mp hp
        rw [(split_loop_keeps basename output_dir slice_duration total_duration
          rest (index + 1) fs exported name c hc).1]
        rfl
      · rw [if_neg hp]
        have hc : ((name, (s, min (s + slice_duration) total_duration)) :: fs).lookup name
            = some (s, min (s + slice_duration) total_duration) := by
          have hb : (name == name) = true := beq_self_eq_true name
          simp only [List.lookup, hb]
        rw [(split_loop_keeps basename output_dir slice_duration total_duration
          rest (index + 1) _ (exported ++ [name]) name _ hc).1]
        rfl
    | succ j =>
      have hj2 : j < rest.length := by simpa using hj
      simp only [List.get_cons_succ]
      rw [show index + (j + 1) = (index + 1) + j from by omega]
      simp only [split_loop]
      by_cases hp : (fs.lookup (clip_filename output_dir basename index s
          (min (s + slice_duration) total_duration))).isSome
      · rw [if_pos hp]
        exact ih (index + 1) fs exported j hj2
      · rw [if_neg hp]
        exact ih (index + 1) _ _ j hj2

/-- When every clip path it would consider is already present, the split loop
does nothing: no export is performed and the accumulator is untouched. -/
theorem split_loop_noop (basename output_dir : String) (slice_duration total_duration : ℕ) :
    ∀ (starts : List ℕ) (index : ℕ) (fs : List (String × ℕ × ℕ)) (exported : List String),
      (∀ j (hj : j < starts.length),
          ((fs.lookup (clip_filename output_dir basename (index + j) (starts.get ⟨j, hj⟩)
            (min (starts.get ⟨j, hj⟩ + slice_duration) total_duration))).isSome) = true) →
      split_loop basename output_dir slice_duration total_duration starts index fs exported
        = (fs, exported) := by
  intro starts
  induction starts with
  | nil => intro index fs exported _; rfl
  | cons s rest ih =>
    intro index fs exported hall
    have h0 := hall 0 (by simp)
    simp only [List.get, Nat.add_zero] at h0
    simp only [split_loop]
    rw [if_pos h0]
    apply ih (index + 1) fs exported
    intro j hj
    have h := hall (j + 1) (by simpa using hj)
    simp only [List.get_cons_succ] at h
    rw [show index + (j + 1) = (index + 1) + j from by omega] at h
    exact h

/-- C7: split_file is idempotent with respect to already-materialized clips:
any file already present (in particular a clip file) is never exported again
and its content is left untouched, yet the clip index still advances, so
after one run every clip filename with its proper index is materialized;
when all clip files already exist no export is performed at all, and
re-running split_file on the result of a run exports nothing and changes
nothing. -/
theorem C7_split_file_idempotent (fs : List (String × ℕ × ℕ)) (file_name : String)
    (split_size total_duration : ℕ) :
    (∀ n c, fs.lookup n = some c →
        (split_file_fs fs file_name split_size total_duration).1.lookup n = some c
        ∧ n ∉ (split_file_fs fs file_name split_size total_duration).2)
    ∧ (∀ j (hj : j < (pyRange 0 total_duration (sliceDuration split_size)).length),
        (((split_file_fs fs file_name split_size total_duration).1.lookup
            (clip_filename ("slices/" ++ source_basename file_name) (source_basename file_name)
              j ((pyRange 0 total_duration (sliceDuration split_size)).get ⟨j, hj⟩)
              (min ((pyRange 0 total_duration (sliceDuration split_size)).get ⟨j, hj⟩
                + sliceDuration split_size) total_duration))).isSome) = true)
    ∧ ((∀ j (hj : j < (pyRange 0 total_duration (sliceDuration split_size)).length),
          ((fs.lookup
              (clip_filename ("slices/" ++ source_basename file_name) (source_basename file_name)
                j ((pyRange 0 total_duration (sliceDuration split_size)).get ⟨j, hj⟩)
                (min ((pyRange 0 total_duration (sliceDuration split_size)).get ⟨j, hj⟩
                  + sliceDuration split_size) total_duration))).isSome) = true) →
        split_file_fs fs file_name split_size total_duration = (fs, []))
    ∧ split_file_fs ((split_file_fs fs file_name split_size total_duration).1) file_name
        split_size total_duration
        = ((split_file_fs fs file_name split_size total_duration).1, []) := by
  refine ⟨?_, ?_, ?_, ?_⟩
  · intro n c h
    have h2 := split_loop_keeps (source_basename file_name)
      ("slices/" ++ source_basename file_name) (sliceDuration split_size) total_duration
      (pyRange 0 total_duration (sliceDuration split_size)) 0 fs [] n c h
    exact ⟨h2.1, fun hx => absurd (h2.2 hx) (List.not_mem_nil n)⟩
  · intro j hj
    have h := split_loop_materializes (source_basename file_name)
      ("slices/" ++ source_basename file_name) (sliceDuration split_size) total_duration
      (pyRange 0 total_duration (sliceDuration split_size)) 0 fs [] j hj
    rwa [Nat.zero_add] at h
  · intro hall
    apply split_loop_noop
    intro j hj
    rw [Nat.zero_add]
    exact hall j hj
  · have hmat : ∀ j (hj : j < (pyRange 0 total_duration (sliceDuration split_size)).length),
        (((split_file_fs fs file_name split_size total_duration).1.lookup
            (clip_filename ("slices/" ++ source_basename file_name) (source_basename file_name)
              j ((pyRange 0 total_duration (sliceDuration split_size)).get ⟨j, hj⟩)
              (min ((pyRange 0 total_duration (sliceDuration split_size)).get ⟨j, hj⟩
                + sliceDuration split_size) total_duration))).isSome) = true := by
      intro j hj
      have h := split_loop_materializes (source_basename file_name)
        ("slices/" ++ source_basename file_name) (sliceDuration split_size) total_duration
        (pyRange 0 total_duration (sliceDuration split_size)) 0 fs [] j hj
      rwa [Nat.zero_add] at h
    apply split_loop_noop
    intro j hj
    rw [Nat.zero_add]
    exact hmat j hj

/-- Witness for C7: one already-existing file named "x", one clip. -/
theorem C7_witness :
    ("x" ∉ (split_file_fs [("x", (1, 2))] "a.mp3" 1 60000).2
      ∧ (split_file_fs [("x", (1, 2))] "a.mp3" 1 60000).1.lookup "x" = some (1, 2))
    ∧ split_file_fs ((split_file_fs [("x", (1, 2))] "a.mp3" 1 60000).1) "a.mp3" 1 60000
        = ((split_file_fs [("x", (1, 2))] "a.mp3" 1 60000).1, []) := by
  have h := C7_split_file_idempotent [("x", (1, 2))] "a.mp3" 1 60000
  exact ⟨⟨(h.1 "x" (1, 2) rfl).2, (h.1 "x" (1, 2) rfl).1⟩, h.2.2.2⟩

end TranscriptWhisper
